import Mathlib

/-!
Verification of the range-partitioned concurrent backfill pattern of
MystenLabs/graphql-benchmark (src/just_the_txs.py,
src/migration_scripts/transactions_v2.py,
src/migration_scripts/just_the_txs.py, src/migration_scripts/objects_history.py).

The Python scripts are shallowly embedded: the partitioning arithmetic of
`start_threads`, the chunked loop of `process_range` (as a trace of events over
explicit cancellation/failure schedules), the SQL statements (as records of
their destination table, WHERE range and ON CONFLICT clause, with a list
semantics for insertion), and the log parsing of `process_log`.
-/

namespace GraphqlBenchmark

/-- Observable events of one worker's execution.  `getconn`/`putconn` are
`connection_pool.getconn()`/`putconn(conn)`; `checkFlag b` is the read of
`shutdown_requested` at the top of the loop body; `execChunk s e` is the
`cur.execute` of the per-chunk statement for keys `[s, e]`; `commit`/`rollback`
are `conn.commit()`/`conn.rollback()` for that chunk; `printError` is a
`print(f"Error ...: {e}")` whose message carries the error but not the failing
range; `logShutdown idx e` is `log_shutdown(thread_id, idx, end)`;
`logError s e` is `log_error(thread_id, start, end, str(e))`.
`execCreateIndex`, `execAttachIndex`, `commitConn`, `rollbackConn` are the
statements of objects_history.py (no per-chunk key range). -/
inductive Ev where
  | getconn
  | putconn
  | checkFlag (b : Bool)
  | execChunk (s e : Nat)
  | commit (s e : Nat)
  | rollback (s e : Nat)
  | printError
  | logShutdown (idx e : Nat)
  | logError (s e : Nat)
  | execCreateIndex
  | execAttachIndex (i : Nat)
  | commitConn
  | rollbackConn
  deriving DecidableEq, Repr

/-- Python's `range(start, stop, step)` for a positive step, as a list:
`ceil((stop-start)/step)` indices `start, start+step, ...` (empty when
`stop ≤ start`). -/
def pyRange (start stop step : Nat) : List Nat :=
  (List.range ((stop - start + step - 1) / step)).map fun i => start + i * step

/-- Number of loop iterations of `process_range` over `[s, e]` with chunk size
`cs`: the length of `range(start, end + 1, chunk_size)`. -/
def numChunks (s e cs : Nat) : Nat := (e + 1 - s + cs - 1) / cs

/-- The chunks visited by `process_range` (src/just_the_txs.py lines 117/121):
for each `idx` of `range(start, end + 1, chunk_size)` the pair
`(idx, min(idx + chunk_size - 1, end))`. -/
def prChunks (s e cs : Nat) : List (Nat × Nat) :=
  (pyRange s (e + 1) cs).map fun idx => (idx, min (idx + cs - 1) e)

/-- Events of one chunk body when the chunk function swallows database errors,
as `setup_unpartitioned_table` (src/just_the_txs.py lines 144-150) and
`migrate_partition` (src/migration_scripts/transactions_v2.py lines 123-140)
do: the statement executes; on failure the connection rolls back and the error
is printed (the printed message carries no key range), and control returns
normally to the loop. -/
def chunkEvents (fails : Nat → Nat → Bool) (a b : Nat) : List Ev :=
  if fails a b then [Ev.execChunk a b, Ev.rollback a b, Ev.printError]
  else [Ev.execChunk a b, Ev.commit a b]

/-- Loop body of `process_range` (src/just_the_txs.py lines 117-123) over the
remaining iteration indices, with `k` counting iterations so the cancellation
schedule `flag` can change between chunks.  On observing the flag the worker
logs `log_shutdown(thread_id, idx, end)` and returns. -/
def prLoopAux (flag : Nat → Bool) (fails : Nat → Nat → Bool) (e cs : Nat) :
    List Nat → Nat → List Ev
  | [], _ => []
  | idx :: rest, k =>
    if flag k then [Ev.checkFlag true, Ev.logShutdown idx e]
    else Ev.checkFlag false ::
      (chunkEvents fails idx (min (idx + cs - 1) e) ++ prLoopAux flag fails e cs rest (k + 1))

/-- The full loop of `process_range` over `range(start, end + 1, chunk_size)`. -/
def prLoop (flag : Nat → Bool) (fails : Nat → Nat → Bool) (s e cs : Nat) : List Ev :=
  prLoopAux flag fails e cs (pyRange s (e + 1) cs) 0

/-- `process_range` (src/just_the_txs.py lines 113-128) with a chunk function
that swallows its own errors: acquire a connection, run the loop, and release
the connection in the `finally` block. -/
def processRange (flag : Nat → Bool) (fails : Nat → Nat → Bool) (s e cs : Nat) : List Ev :=
  Ev.getconn :: prLoop flag fails s e cs ++ [Ev.putconn]

/-- Loop body of `process_range` when the chunk function propagates its
exception: the `except` branch logs `log_error(thread_id, start, end, str(e))`
with the worker's original sub-range `(s0, e)` and re-raises, so no later
iteration runs (src/just_the_txs.py lines 124-126). -/
def prLoopXAux (flag : Nat → Bool) (raises : Nat → Nat → Bool) (s0 e cs : Nat) :
    List Nat → Nat → List Ev
  | [], _ => []
  | idx :: rest, k =>
    if flag k then [Ev.checkFlag true, Ev.logShutdown idx e]
    else if raises idx (min (idx + cs - 1) e) then
      [Ev.checkFlag false, Ev.execChunk idx (min (idx + cs - 1) e), Ev.logError s0 e]
    else Ev.checkFlag false :: Ev.execChunk idx (min (idx + cs - 1) e) ::
      Ev.commit idx (min (idx + cs - 1) e) :: prLoopXAux flag raises s0 e cs rest (k + 1)

/-- `process_range` with a propagating chunk function; the `finally` block
still releases the connection on the exception path. -/
def processRangeX (flag : Nat → Bool) (raises : Nat → Nat → Bool) (s e cs : Nat) : List Ev :=
  Ev.getconn :: prLoopXAux flag raises s e cs (pyRange s (e + 1) cs) 0 ++ [Ev.putconn]

/-- The chunks whose transaction committed, in trace order. -/
def commitsOf (t : List Ev) : List (Nat × Nat) :=
  t.filterMap fun ev =>
    match ev with
    | Ev.commit a b => some (a, b)
    | _ => none

/-- The events strictly after the first observation of the cancellation flag
as true, if there is one. -/
def afterFirstTrueCheck : List Ev → Option (List Ev)
  | [] => none
  | Ev.checkFlag true :: rest => some rest
  | _ :: rest => afterFirstTrueCheck rest

/-- The events strictly after the first `log_error` record, if there is one. -/
def afterFirstLogError : List Ev → Option (List Ev)
  | [] => none
  | Ev.logError _ _ :: rest => some rest
  | _ :: rest => afterFirstLogError rest

/-- Whether an event is a `log_error` record. -/
def isLogError : Ev → Bool
  | Ev.logError _ _ => true
  | _ => false

/-- Cancellation schedule of a signal arriving between chunk `m - 1` and chunk
`m`: `shutdown_requested` is set once by the signal handler and stays true, so
the flag reads false for the first `m` checks and true from check `m` on. -/
def flagAt (m : Nat) : Nat → Bool := fun j => decide (m ≤ j)

/-- `range_per_thread = math.ceil(total_range / max_connections)`
(src/just_the_txs.py lines 243-244), with the float division modelled as exact
ceiling division on naturals. -/
def rangePerThread (s e n : Nat) : Nat := (e - s + 1 + n - 1) / n

/-- The sub-range list built by `start_threads` when no `thread_ranges` are
supplied (src/just_the_txs.py line 247):
`[(start + i * range_per_thread, min(start + (i + 1) * range_per_thread - 1, end))
  for i in range(max_connections)]`, with the pool size as parameter `n`. -/
def partition (s e n : Nat) : List (Nat × Nat) :=
  (List.range n).map fun i =>
    (s + i * rangePerThread s e n, min (s + (i + 1) * rangePerThread s e n - 1) e)

/-- Number of keys of a closed sub-range. -/
def rlen (p : Nat × Nat) : Nat := p.2 + 1 - p.1

/-- The sub-ranges `start_threads` dispatches to workers
(src/just_the_txs.py lines 245-258): the freshly partitioned ranges when
`thread_ranges` is empty, otherwise `thread_ranges` itself. -/
def startThreadsRanges (s e : Nat) (threadRanges : List (Nat × Nat)) (n : Nat) :
    List (Nat × Nat) :=
  if threadRanges.isEmpty then partition s e n else threadRanges

/-- The sub-range list built by `start_threads` of
src/migration_scripts/transactions_v2.py (lines 149-158) when no
`thread_ranges` are supplied: one range of `range_per_partition = 10000000`
keys per partition, 131 partitions. -/
def tvThreadRanges (s e : Nat) : List (Nat × Nat) :=
  (List.range 131).map fun p =>
    (s + p * 10000000, min (s + p * 10000000 + 10000000 - 1) e)

/-- `calculate_partition` (src/migration_scripts/transactions_v2.py
lines 108-120). -/
def calculatePartition (txSequenceNumber : Nat) (partitionSize : Nat := 10000000) : Nat :=
  txSequenceNumber / partitionSize

/-- Lower bound of the declared bounds of partition `p`:
`FOR VALUES FROM (partition_id * 10000000) ...` (transactions_v2.py line 223). -/
def attachLowerBound (p : Nat) : Nat := p * 10000000

/-- Upper (exclusive) bound of the declared bounds of partition `p`:
`... TO ((partition_id + 1) * 10000000)` (transactions_v2.py line 223). -/
def attachUpperBound (p : Nat) : Nat := (p + 1) * 10000000

/-- `attach_partition` of src/migration_scripts/objects_history.py
(lines 38-62): create the parent index (on failure: rollback, print,
`putconn`, return); then for `i in range(start, end)` attach each partition
index, swallowing per-partition errors.  The source calls
`connection_pool.putconn` only in the early-failure branch. -/
def attachPartition (createFails : Bool) (attachFails : Nat → Bool) (s e : Nat) : List Ev :=
  if createFails then [Ev.execCreateIndex, Ev.rollbackConn, Ev.printError, Ev.putconn]
  else Ev.execCreateIndex :: Ev.commitConn ::
    ((List.range (e - s)).map (fun i => s + i)).flatMap fun i =>
      if attachFails i then [Ev.execAttachIndex i, Ev.rollbackConn, Ev.printError]
      else [Ev.execAttachIndex i, Ev.commitConn]

/-- Accumulate a maximal run of leading digits (the greedy `\d+` of the resume
regex), returning the parsed value and the remaining characters. -/
def takeDigitsAux : List Char → Nat → Nat × List Char
  | [], acc => (acc, [])
  | c :: cs, acc =>
    if c.isDigit then takeDigitsAux cs (acc * 10 + (c.toNat - 48)) else (acc, c :: cs)

/-- Match `\d+`: at least one digit, maximal munch. -/
def takeDigits : List Char → Option (Nat × List Char)
  | [] => none
  | c :: cs => if c.isDigit then some (takeDigitsAux (c :: cs) 0) else none

/-- Match a literal prefix, returning the remaining characters. -/
def stripExact : List Char → List Char → Option (List Char)
  | [], rest => some rest
  | _ :: _, [] => none
  | p :: ps, c :: cs => if c = p then stripExact ps cs else none

/-- One line of `process_log` (src/just_the_txs.py lines 278-287):
`re.match(r"root - INFO - Thread (\d+) shutdown at range (\d+)-(\d+)", line)`,
returning the two range groups.  `re.match` anchors at the start of the line
only, so trailing characters are allowed; each greedy `\d+` is a maximal digit
run because the following literal starts with a non-digit. -/
def parseShutdownLine (line : String) : Option (Nat × Nat) :=
  match stripExact "root - INFO - Thread ".data line.data with
  | none => none
  | some r1 =>
    match takeDigits r1 with
    | none => none
    | some (_, r2) =>
      match stripExact " shutdown at range ".data r2 with
      | none => none
      | some r3 =>
        match takeDigits r3 with
        | none => none
        | some (a, r4) =>
          match stripExact "-".data r4 with
          | none => none
          | some r5 =>
            match takeDigits r5 with
            | none => none
            | some (b, _) => some (a, b)

/-- `process_log` (src/just_the_txs.py lines 278-287): collect the `(start,
end)` groups of every matching line of the log file. -/
def processLog (lines : List String) : List (Nat × Nat) :=
  lines.filterMap parseShutdownLine

/-- A per-chunk INSERT statement, reduced to the parts the claims are about:
destination table, the `BETWEEN %s AND %s` key range, and the `ON CONFLICT
(cols) DO NOTHING` clause when present. -/
structure ChunkStmt where
  table : String
  whereLo : Nat
  whereHi : Nat
  conflictTarget : Option (List String)
  deriving DecidableEq, Repr

/-- Declared primary keys of the destination tables, from the CREATE TABLE
statements in the module docstring of src/just_the_txs.py (lines 1-52). -/
def primaryKey : String → List String
  | "tx_sequence_numbers" => ["tx_sequence_number"]
  | "tx_calls_cp" => ["package", "module", "func", "address", "tx_sequence_number"]
  | "tx_senders_cp" => ["address", "tx_sequence_number", "checkpoint_sequence_number"]
  | "tx_recipients_cp" => ["address", "tx_sequence_number", "checkpoint_sequence_number"]
  | "tx_addresses" => ["address", "rel", "tx_sequence_number", "checkpoint_sequence_number"]
  | _ => []

/-- The statement of `setup_unpartitioned_table` (src/just_the_txs.py
lines 131-150): insert into tx_sequence_numbers,
`ON CONFLICT (tx_sequence_number) DO NOTHING`. -/
def setupUnpartitionedTableStmt (s e : Nat) : ChunkStmt :=
  { table := "tx_sequence_numbers", whereLo := s, whereHi := e,
    conflictTarget := some ["tx_sequence_number"] }

/-- The statement of `update_address_with_cp` (src/just_the_txs.py
lines 153-180): insert into `tx_{rel}s_cp`,
`ON CONFLICT (address, tx_sequence_number, checkpoint_sequence_number) DO NOTHING`. -/
def updateAddressWithCpStmt (s e : Nat) (rel : String) : ChunkStmt :=
  { table := "tx_" ++ rel ++ "s_cp", whereLo := s, whereHi := e,
    conflictTarget := some ["address", "tx_sequence_number", "checkpoint_sequence_number"] }

/-- The statement of `create_merged_address_table` (src/just_the_txs.py
lines 182-210): insert into tx_addresses, `ON CONFLICT (tx_sequence_number,
rel, address, checkpoint_sequence_number) DO NOTHING`. -/
def createMergedAddressTableStmt (s e : Nat) : ChunkStmt :=
  { table := "tx_addresses", whereLo := s, whereHi := e,
    conflictTarget := some ["tx_sequence_number", "rel", "address", "checkpoint_sequence_number"] }

/-- The statement of `update_table_with_addr` (src/just_the_txs.py
lines 213-240): insert into `{table}_cp`, `ON CONFLICT ({primary_key},
address, tx_sequence_number) DO NOTHING`. -/
def updateTableWithAddrStmt (s e : Nat) (table : String) (pk : List String) : ChunkStmt :=
  { table := table ++ "_cp", whereLo := s, whereHi := e,
    conflictTarget := some (pk ++ ["address", "tx_sequence_number"]) }

/-- The statement of `migrate_partition`
(src/migration_scripts/transactions_v2.py lines 122-140):
`insert into transactions_v2_{p} select * from transactions where ...` with no
ON CONFLICT clause at all. -/
def migratePartitionStmt (s e p : Nat) : ChunkStmt :=
  { table := "transactions_v2_" ++ toString p, whereLo := s, whereHi := e,
    conflictTarget := none }

/-- The statement of `update_address_with_cp` of
src/migration_scripts/just_the_txs.py (lines 94-123): insert into
tx_recipients_rel with no ON CONFLICT clause. -/
def migUpdateAddressWithCpStmt (s e : Nat) : ChunkStmt :=
  { table := "tx_recipients_rel", whereLo := s, whereHi := e,
    conflictTarget := none }

/-- A statement is keyed on the destination's declared primary key when its
conflict target names exactly the primary-key columns (in any order, as
Postgres matches the arbiter index by column set). -/
def keyedOnPK (st : ChunkStmt) : Prop :=
  ∃ cols, st.conflictTarget = some cols ∧ cols.Perm (primaryKey st.table)

/-- Whether key `k` occurs in table state `t` (rows are key-payload pairs). -/
def keyMem (k : Nat) (t : List (Nat × Nat)) : Bool :=
  t.any fun x => x.1 == k

/-- Semantics of `INSERT ... ON CONFLICT (pk) DO NOTHING` on a destination
state: each selected row is appended unless its key is already present
(conflicts are also checked against rows inserted earlier in the same
statement, as in Postgres). -/
def insertIgnore (rows t : List (Nat × Nat)) : List (Nat × Nat) :=
  rows.foldl (fun acc r => if keyMem r.1 acc then acc else acc ++ [r]) t

/-- Semantics of a plain `INSERT ... SELECT` with no conflict clause: all
selected rows are appended. -/
def insertPlain (rows t : List (Nat × Nat)) : List (Nat × Nat) :=
  t ++ rows

/-! Arithmetic helpers about ceiling division. -/

lemma le_mul_ceil (t n : Nat) (hn : 0 < n) : t ≤ n * ((t + n - 1) / n) := by
  have h := Nat.div_add_mod (t + n - 1) n
  have h2 : (t + n - 1) % n < n := Nat.mod_lt _ hn
  generalize n * ((t + n - 1) / n) = m at h ⊢
  omega

lemma ceil_div_eq (t n : Nat) (ht : 0 < t) (hn : 0 < n) :
    (t + n - 1) / n = (t - 1) / n + 1 := by
  rw [show t + n - 1 = (t - 1) + n by omega, Nat.add_div_right _ hn]

lemma one_le_ceil (t n : Nat) (ht : 0 < t) (hn : 0 < n) : 1 ≤ (t + n - 1) / n := by
  rw [ceil_div_eq t n ht hn]
  exact Nat.le_add_left 1 _

/-! Structural lemmas about the embedded loop. -/

lemma pyRange_len (a b st : Nat) : (pyRange a b st).length = (b - a + st - 1) / st := by
  simp [pyRange]

lemma pyRange_cons (a b st : Nat) (hab : a < b) (hst : 0 < st) :
    pyRange a b st = a :: pyRange (a + st) b st := by
  have hlen : (b - a - 1) / st = (b - (a + st) + st - 1) / st := by
    rcases Nat.lt_or_ge b (a + st) with h | h
    · rw [Nat.div_eq_of_lt (by omega), Nat.div_eq_of_lt (by omega)]
    · congr 1; omega
  unfold pyRange
  rw [ceil_div_eq (b - a) st (by omega) hst, ← hlen, List.range_succ_eq_map,
    List.map_cons, List.map_map]
  refine congrArg₂ _ (by simp) (List.map_congr_left fun i _ => ?_)
  have h1 : (i + 1) * st = i * st + st := Nat.succ_mul i st
  simp only [Function.comp_apply, Nat.succ_eq_add_one]
  omega

lemma mem_pyRange (a b st x : Nat) :
    x ∈ pyRange a b st ↔ ∃ i, i < (b - a + st - 1) / st ∧ x = a + i * st := by
  simp [pyRange, List.mem_map, List.mem_range, eq_comm]

lemma mem_prChunks (s e cs : Nat) (c : Nat × Nat) :
    c ∈ prChunks s e cs ↔
      ∃ i, i < numChunks s e cs ∧ c = (s + i * cs, min (s + i * cs + cs - 1) e) := by
  simp only [prChunks, List.mem_map, numChunks]
  constructor
  · rintro ⟨idx, hidx, rfl⟩
    obtain ⟨i, hi, rfl⟩ := (mem_pyRange s (e + 1) cs idx).1 hidx
    exact ⟨i, hi, rfl⟩
  · rintro ⟨i, hi, rfl⟩
    exact ⟨s + i * cs, (mem_pyRange s (e + 1) cs _).2 ⟨i, hi, rfl⟩, rfl⟩

lemma prChunks_getElem? (s e cs i : Nat) (hi : i < numChunks s e cs) :
    (prChunks s e cs)[i]? = some (s + i * cs, min (s + i * cs + cs - 1) e) := by
  have hlen : i < ((e + 1) - s + cs - 1) / cs := hi
  simp [prChunks, pyRange, List.getElem?_map, List.getElem?_range hlen]

lemma prChunks_length (s e cs : Nat) : (prChunks s e cs).length = numChunks s e cs := by
  simp [prChunks, pyRange, numChunks]

/-- Any listed chunk lies inside the sub-range it was cut from. -/
lemma prChunks_subset (s e cs : Nat) (hcs : 0 < cs) (hse : s ≤ e) (c : Nat × Nat)
    (hc : c ∈ prChunks s e cs) : s ≤ c.1 ∧ c.1 ≤ c.2 ∧ c.2 ≤ e := by
  obtain ⟨i, hi, rfl⟩ := (mem_prChunks s e cs c).1 hc
  have ht : 0 < e + 1 - s := by omega
  have hnum : numChunks s e cs = (e + 1 - s - 1) / cs + 1 := ceil_div_eq _ _ ht hcs
  have hile : i ≤ (e + 1 - s - 1) / cs := by omega
  have hmul : i * cs ≤ e + 1 - s - 1 := (Nat.le_div_iff_mul_le hcs).1 hile
  refine ⟨Nat.le_add_right _ _, ?_, Nat.min_le_right _ _⟩
  have : s + i * cs ≤ e := by omega
  omega

/-- Coverage: the chunks of `[s, e]` contain exactly the keys of `[s, e]`. -/
lemma prChunks_cover (s e cs : Nat) (hcs : 0 < cs) (k : Nat) :
    (∃ c ∈ prChunks s e cs, c.1 ≤ k ∧ k ≤ c.2) ↔ (s ≤ k ∧ k ≤ e) := by
  constructor
  · rintro ⟨c, hc, h1, h2⟩
    obtain ⟨i, hi, rfl⟩ := (mem_prChunks s e cs c).1 hc
    have := Nat.min_le_right (s + i * cs + cs - 1) e
    exact ⟨le_trans (Nat.le_add_right _ _) h1, le_trans h2 this⟩
  · rintro ⟨h1, h2⟩
    have ht : 0 < e + 1 - s := by omega
    refine ⟨(s + ((k - s) / cs) * cs, min (s + ((k - s) / cs) * cs + cs - 1) e),
      (mem_prChunks s e cs _).2 ⟨(k - s) / cs, ?_, rfl⟩, ?_, ?_⟩
    · have hnum : numChunks s e cs = (e + 1 - s - 1) / cs + 1 := ceil_div_eq _ _ ht hcs
      have : (k - s) / cs ≤ (e + 1 - s - 1) / cs := Nat.div_le_div_right (by omega)
      omega
    · have := Nat.div_mul_le_self (k - s) cs
      omega
    · have hdm := Nat.div_add_mod (k - s) cs
      have hlt : (k - s) % cs < cs := Nat.mod_lt _ hcs
      refine Nat.le_min.2 ⟨?_, h2⟩
      generalize hq : (k - s) / cs = q at hdm
      have : cs * q = q * cs := Nat.mul_comm _ _
      omega

/-! Claim C10.  A degenerate sub-range (start > end), as the partitioner
produces when the pool size exceeds the number of keys, makes the loop of
`process_range` iterate zero times: no chunk statement is executed and the
`finally` block still releases the connection. -/

/-- Claim C10: for a degenerate sub-range with start > end, `process_range`
issues no chunk statement, returns normally, and still releases its connection
back to the pool; such degenerate sub-ranges do arise from the partitioner
(`partition 0 1 4` contains `(2, 1)`). -/
theorem degenerate_range_noop (flag : Nat → Bool) (fails : Nat → Nat → Bool)
    (s e cs : Nat) (h : e < s) :
    processRange flag fails s e cs = [Ev.getconn, Ev.putconn]
    ∧ (∀ a b, Ev.execChunk a b ∉ processRange flag fails s e cs)
    ∧ (processRange flag fails s e cs).getLast? = some Ev.putconn
    ∧ ∃ r ∈ partition 0 1 4, r.2 < r.1 := by
  have hpy : pyRange s (e + 1) cs = [] := by
    have : e + 1 - s = 0 := by omega
    rw [pyRange, this]
    have : (0 + cs - 1) / cs = 0 := by
      rcases Nat.eq_zero_or_pos cs with hc | hc
      · subst hc; rfl
      · exact Nat.div_eq_of_lt (by omega)
    rw [this]; rfl
  have htrace : processRange flag fails s e cs = [Ev.getconn, Ev.putconn] := by
    rw [processRange, prLoop, hpy]; rfl
  refine ⟨htrace, ?_, ?_, ?_⟩
  · intro a b hmem
    rw [htrace] at hmem
    simp at hmem
  · rw [htrace]; rfl
  · exact ⟨(2, 1), by decide, by decide⟩

/-- Witness for C10 at `s = 6 > 4 = e`. -/
theorem degenerate_range_noop_witness :
    (4 : Nat) < 6 ∧
    (processRange (fun _ => false) (fun _ _ => false) 6 4 10000 = [Ev.getconn, Ev.putconn]
    ∧ (∀ a b, Ev.execChunk a b ∉ processRange (fun _ => false) (fun _ _ => false) 6 4 10000)
    ∧ (processRange (fun _ => false) (fun _ _ => false) 6 4 10000).getLast? = some Ev.putconn
    ∧ ∃ r ∈ partition 0 1 4, r.2 < r.1) :=
  ⟨by decide, degenerate_range_noop (fun _ => false) (fun _ _ => false) 6 4 10000 (by decide)⟩

/-! Claim C8.  Connection release.  `process_range` releases its connection in
a `finally` block on every path, but `attach_partition` of objects_history.py
returns its connection to the pool only on the early create-index failure
path: on normal completion no `putconn` happens. -/

lemma getLast?_cons_append (x a : Ev) (l : List Ev) :
    (x :: l ++ [a]).getLast? = some a := by
  rw [show x :: l ++ [a] = (x :: l) ++ [a] from rfl, List.getLast?_concat]

/-- Claim C8 counterexample: on the normal-completion path of
`attach_partition` (no failures, three partitions) the connection is never
returned to the pool. -/
theorem attach_partition_leaks_connection :
    Ev.putconn ∉ attachPartition false (fun _ => false) 0 3 := by decide

/-- Claim C8, amended: both `process_range` variants (chunk function swallowing
errors, and chunk function propagating an exception) end with `putconn` on
every schedule — completion, cooperative cancellation, or error — while
`attach_partition` releases its connection only on its early-failure path. -/
theorem connection_release_paths :
    (∀ (flag : Nat → Bool) (fails : Nat → Nat → Bool) (s e cs : Nat),
      (processRange flag fails s e cs).getLast? = some Ev.putconn)
    ∧ (∀ (flag : Nat → Bool) (raises : Nat → Nat → Bool) (s e cs : Nat),
      (processRangeX flag raises s e cs).getLast? = some Ev.putconn)
    ∧ (∀ (attachFails : Nat → Bool) (s e : Nat),
      (attachPartition true attachFails s e).getLast? = some Ev.putconn) := by
  refine ⟨fun flag fails s e cs => ?_, fun flag raises s e cs => ?_,
    fun attachFails s e => ?_⟩
  · exact getLast?_cons_append _ _ _
  · exact getLast?_cons_append _ _ _
  · rfl

/-! Claim C1 counterexample: the clause "each sub-range has length
`ceil((end-start+1)/n)` except the last" fails at `partition 0 4 4`, whose
third (non-last) sub-range `(4, 4)` has 1 key while
`rangePerThread 0 4 4 = 2`. -/

/-- Claim C1 counterexample. -/
theorem partition_length_clause_fails :
    ((partition 0 4 4).dropLast.all fun p => rlen p == rangePerThread 0 4 4) = false := by
  decide

/-! Claim C2 counterexample: the chunk statement issued by `migrate_partition`
for chunk `(0, 9999)` has no ON CONFLICT clause, and a plain insert applied
twice does not equal the insert applied once. -/

/-- Claim C2 counterexample. -/
theorem migrate_partition_not_upsert :
    (migratePartitionStmt 0 9999 0).conflictTarget = none
    ∧ insertPlain [(1, 2)] (insertPlain [(1, 2)] []) ≠ insertPlain [(1, 2)] [] := by
  exact ⟨rfl, by decide⟩

/-! Claim C5 counterexample: with the failure schedule making chunk
`(10000, 19999)` fail, the worker still executes the later chunk
`(20000, 29999)` (the sub-range is not abandoned), and no `log_error` record
is produced (the error is only printed, without the failing range). -/

/-- Claim C5 counterexample. -/
theorem chunk_failure_not_abandoning :
    Ev.rollback 10000 19999 ∈ prLoop (fun _ => false) (fun a _ => a == 10000) 0 29999 10000
    ∧ Ev.execChunk 20000 29999 ∈ prLoop (fun _ => false) (fun a _ => a == 10000) 0 29999 10000
    ∧ ((prLoop (fun _ => false) (fun a _ => a == 10000) 0 29999 10000).all
        fun ev => !isLogError ev) = true := by
  decide

/-! Claim C1 (amended).  Properties of the partitioning step of
`start_threads`. -/

lemma partition_getElem? (s e n i : Nat) (hi : i < n) :
    (partition s e n)[i]? =
      some (s + i * rangePerThread s e n, min (s + (i + 1) * rangePerThread s e n - 1) e) := by
  simp [partition, List.getElem?_map, List.getElem?_range hi]

lemma partition_length (s e n : Nat) : (partition s e n).length = n := by
  simp [partition]

/-- Claim C1, amended: for `start ≤ end` and `n ≥ 1` the partitioning step
returns `n` sub-ranges `(start + i*q, min(start + (i+1)*q - 1, end))` with
`q = ceil((end-start+1)/n)`; they are sorted by start, pairwise disjoint as
key sets, and their union is exactly `[start, end]`.  Every non-last sub-range
has length exactly `q` (with the last truncated at `end`) only under the
additional condition `(n-1)*q ≤ end-start+1`; otherwise trailing sub-ranges
are truncated or empty.  The example `partition 0 999 4` holds as stated. -/
theorem partition_properties (s e n : Nat) (hse : s ≤ e) (hn : 0 < n) :
    (partition s e n).length = n
    ∧ (∀ i, i < n → (partition s e n)[i]? =
        some (s + i * rangePerThread s e n, min (s + (i + 1) * rangePerThread s e n - 1) e))
    ∧ (∀ (i j : Nat) (pi pj : Nat × Nat), i < j → (partition s e n)[i]? = some pi →
        (partition s e n)[j]? = some pj → pi.1 < pj.1)
    ∧ (∀ (i j : Nat) (pi pj : Nat × Nat), i < j → (partition s e n)[i]? = some pi →
        (partition s e n)[j]? = some pj →
        ∀ k, ¬(pi.1 ≤ k ∧ k ≤ pi.2 ∧ pj.1 ≤ k ∧ k ≤ pj.2))
    ∧ (∀ k, (s ≤ k ∧ k ≤ e) ↔ ∃ p ∈ partition s e n, p.1 ≤ k ∧ k ≤ p.2)
    ∧ ((n - 1) * rangePerThread s e n ≤ e - s + 1 →
        (∀ (i : Nat) (p : Nat × Nat), i + 1 < n → (partition s e n)[i]? = some p →
          rlen p = rangePerThread s e n)
        ∧ (partition s e n).getLast? = some (s + (n - 1) * rangePerThread s e n, e))
    ∧ partition 0 999 4 = [(0, 249), (250, 499), (500, 749), (750, 999)] := by
  set q := rangePerThread s e n with hqdef
  have hq : 1 ≤ q := one_le_ceil (e - s + 1) n (by omega) hn
  have htq : e - s + 1 ≤ n * q := le_mul_ceil (e - s + 1) n hn
  have hsome : ∀ {i pi}, (partition s e n)[i]? = some pi →
      i < n ∧ pi = (s + i * q, min (s + (i + 1) * q - 1) e) := by
    intro i pi hpi
    have hilt : i < n := by
      by_contra hge
      rw [List.getElem?_eq_none (by rw [partition_length]; omega)] at hpi
      exact Option.noConfusion hpi
    rw [partition_getElem? s e n i hilt] at hpi
    exact ⟨hilt, (Option.some.inj hpi).symm⟩
  refine ⟨partition_length s e n, fun i hi => partition_getElem? s e n i hi,
    ?_, ?_, ?_, ?_, by decide⟩
  · intro i j pi pj hij hpi hpj
    obtain ⟨hi, rfl⟩ := hsome hpi
    obtain ⟨hj, rfl⟩ := hsome hpj
    have hmul : (i + 1) * q ≤ j * q := Nat.mul_le_mul_right q (by omega)
    rw [Nat.succ_mul] at hmul
    simp only
    omega
  · intro i j pi pj hij hpi hpj k hk
    obtain ⟨hi, rfl⟩ := hsome hpi
    obtain ⟨hj, rfl⟩ := hsome hpj
    have hmul : (i + 1) * q ≤ j * q := Nat.mul_le_mul_right q (by omega)
    rw [Nat.succ_mul] at hmul
    obtain ⟨h1, h2, h3, h4⟩ := hk
    have h5 : k ≤ s + (i + 1) * q - 1 := le_trans h2 (Nat.min_le_left _ _)
    rw [Nat.succ_mul] at h5
    simp only at h1 h3
    omega
  · intro k
    constructor
    · rintro ⟨h1, h2⟩
      have hidx : (k - s) / q < n := by
        rw [Nat.div_lt_iff_lt_mul hq]
        have : n * q = q * n := Nat.mul_comm _ _
        omega
      refine ⟨(s + ((k - s) / q) * q, min (s + ((k - s) / q + 1) * q - 1) e),
        ?_, ?_, ?_⟩
      · simp only [partition, List.mem_map, List.mem_range]
        exact ⟨(k - s) / q, hidx, rfl⟩
      · have := Nat.div_mul_le_self (k - s) q
        omega
      · have hdm := Nat.div_add_mod (k - s) q
        have hmod : (k - s) % q < q := Nat.mod_lt _ hq
        refine Nat.le_min.2 ⟨?_, h2⟩
        rw [Nat.succ_mul]
        generalize hv : (k - s) / q = v at hdm
        have : q * v = v * q := Nat.mul_comm _ _
        omega
    · rintro ⟨p, hp, h1, h2⟩
      simp only [partition, List.mem_map, List.mem_range] at hp
      obtain ⟨i, hi, rfl⟩ := hp
      have := Nat.min_le_right (s + (i + 1) * q - 1) e
      simp only at h1 h2
      exact ⟨le_trans (Nat.le_add_right _ _) h1, le_trans h2 this⟩
  · intro hfit
    constructor
    · intro i p hi hp
      obtain ⟨_, rfl⟩ := hsome hp
      have hmul : (i + 1) * q ≤ (n - 1) * q := Nat.mul_le_mul_right q (by omega)
      have hle : s + (i + 1) * q - 1 ≤ e := by omega
      rw [Nat.min_eq_left hle, rlen]
      rw [Nat.succ_mul]
      simp only
      omega
    · rw [List.getLast?_eq_getElem?, partition_length]
      have hn1 : n - 1 < n := by omega
      rw [partition_getElem? s e n (n - 1) hn1]
      have hrw : n - 1 + 1 = n := by omega
      rw [hrw]
      have hmin : min (s + n * q - 1) e = e := Nat.min_eq_right (by omega)
      rw [hmin]

/-- Witness for C1 (amended) at `partition 0 999 4`. -/
theorem partition_properties_witness :
    (0 : Nat) ≤ 999 ∧ (0 : Nat) < 4 ∧
    ((partition 0 999 4).length = 4
    ∧ (∀ i, i < 4 → (partition 0 999 4)[i]? =
        some (0 + i * rangePerThread 0 999 4, min (0 + (i + 1) * rangePerThread 0 999 4 - 1) 999))
    ∧ (∀ (i j : Nat) (pi pj : Nat × Nat), i < j → (partition 0 999 4)[i]? = some pi →
        (partition 0 999 4)[j]? = some pj → pi.1 < pj.1)
    ∧ (∀ (i j : Nat) (pi pj : Nat × Nat), i < j → (partition 0 999 4)[i]? = some pi →
        (partition 0 999 4)[j]? = some pj →
        ∀ k, ¬(pi.1 ≤ k ∧ k ≤ pi.2 ∧ pj.1 ≤ k ∧ k ≤ pj.2))
    ∧ (∀ k, (0 ≤ k ∧ k ≤ 999) ↔ ∃ p ∈ partition 0 999 4, p.1 ≤ k ∧ k ≤ p.2)
    ∧ ((4 - 1) * rangePerThread 0 999 4 ≤ 999 - 0 + 1 →
        (∀ (i : Nat) (p : Nat × Nat), i + 1 < 4 → (partition 0 999 4)[i]? = some p →
          rlen p = rangePerThread 0 999 4)
        ∧ (partition 0 999 4).getLast? = some (0 + (4 - 1) * rangePerThread 0 999 4, 999))
    ∧ partition 0 999 4 = [(0, 249), (250, 499), (500, 749), (750, 999)]) :=
  ⟨by decide, by decide, partition_properties 0 999 4 (by decide) (by decide)⟩

/-! Claim C2 (amended).  Conflict-clause classification of the backfill
statements, and idempotence of the conflict-ignoring insert semantics. -/

lemma keyMem_insertIgnore_mono (rows : List (Nat × Nat)) (t : List (Nat × Nat)) (k : Nat)
    (h : keyMem k t = true) : keyMem k (insertIgnore rows t) = true := by
  induction rows generalizing t with
  | nil => exact h
  | cons r rest ih =>
    rw [insertIgnore, List.foldl_cons]
    by_cases hc : keyMem r.1 t = true
    · rw [if_pos hc]
      exact ih t h
    · rw [if_neg hc]
      refine ih _ ?_
      rw [keyMem, List.any_append]
      rw [keyMem] at h
      simp [h]

lemma keyMem_insertIgnore_self (rows : List (Nat × Nat)) (t : List (Nat × Nat))
    (r : Nat × Nat) (hr : r ∈ rows) : keyMem r.1 (insertIgnore rows t) = true := by
  induction rows generalizing t with
  | nil => cases hr
  | cons x rest ih =>
    rw [insertIgnore, List.foldl_cons]
    rcases List.mem_cons.1 hr with rfl | hmem
    · by_cases hc : keyMem r.1 t = true
      · rw [if_pos hc]
        exact keyMem_insertIgnore_mono rest t r.1 hc
      · rw [if_neg hc]
        refine keyMem_insertIgnore_mono rest _ r.1 ?_
        rw [keyMem, List.any_append]
        simp [keyMem]
    · by_cases hc : keyMem x.1 t = true
      · rw [if_pos hc]; exact ih t hmem
      · rw [if_neg hc]; exact ih _ hmem

lemma insertIgnore_of_all_present (rows : List (Nat × Nat)) (t : List (Nat × Nat))
    (h : ∀ r ∈ rows, keyMem r.1 t = true) : insertIgnore rows t = t := by
  induction rows with
  | nil => rfl
  | cons r rest ih =>
    rw [insertIgnore, List.foldl_cons, if_pos (h r (List.mem_cons_self r rest))]
    exact ih fun x hx => h x (List.mem_cons_of_mem r hx)

/-- Claim C2, amended: the chunk statements of src/just_the_txs.py
(`setup_unpartitioned_table`, `update_address_with_cp`,
`create_merged_address_table`, `update_table_with_addr` on tx_calls) are
conflict-ignoring inserts whose conflict target is exactly the destination's
declared primary key, and the conflict-ignoring semantics is idempotent; but
`migrate_partition` (transactions_v2.py) and `update_address_with_cp`
(migration_scripts/just_the_txs.py) issue plain INSERT ... SELECT with no
conflict clause, whose semantics is not idempotent. -/
theorem upsert_statements_classified (s e p : Nat) :
    keyedOnPK (setupUnpartitionedTableStmt s e)
    ∧ keyedOnPK (updateAddressWithCpStmt s e "sender")
    ∧ keyedOnPK (updateAddressWithCpStmt s e "recipient")
    ∧ keyedOnPK (createMergedAddressTableStmt s e)
    ∧ keyedOnPK (updateTableWithAddrStmt s e "tx_calls" ["package", "module", "func"])
    ∧ (∀ rows t : List (Nat × Nat), insertIgnore rows (insertIgnore rows t) = insertIgnore rows t)
    ∧ (migratePartitionStmt s e p).conflictTarget = none
    ∧ (migUpdateAddressWithCpStmt s e).conflictTarget = none
    ∧ insertPlain [(1, 2)] (insertPlain [(1, 2)] []) ≠ insertPlain [(1, 2)] [] := by
  refine ⟨⟨_, rfl, show (["tx_sequence_number"] : List String).Perm
        (primaryKey "tx_sequence_numbers") by decide⟩,
    ⟨_, rfl, show (["address", "tx_sequence_number", "checkpoint_sequence_number"] :
        List String).Perm (primaryKey "tx_senders_cp") by decide⟩,
    ⟨_, rfl, show (["address", "tx_sequence_number", "checkpoint_sequence_number"] :
        List String).Perm (primaryKey "tx_recipients_cp") by decide⟩,
    ⟨_, rfl, show (["tx_sequence_number", "rel", "address", "checkpoint_sequence_number"] :
        List String).Perm (primaryKey "tx_addresses") by decide⟩,
    ⟨_, rfl, show ((["package", "module", "func"] ++ ["address", "tx_sequence_number"]) :
        List String).Perm (primaryKey "tx_calls_cp") by decide⟩,
    ?_, rfl, rfl, by decide⟩
  intro rows t
  exact insertIgnore_of_all_present rows _
    fun r hr => keyMem_insertIgnore_self rows t r hr

/-! Claim C3.  Resume from a log recording only the incomplete sub-range
`(100, 199)` reprocesses exactly the keys of `[100, 199]`. -/

/-- Claim C3: if the parsed log records exactly the sub-range `(100, 199)`,
the resume path (`process_log` feeding `thread_ranges` into `start_threads`)
dispatches exactly that sub-range, so the keys covered by the chunks of the
dispatched workers are exactly `[100, 199]`. -/
theorem resume_reprocesses_logged_range (lines : List String) (s0 e0 cs n : Nat)
    (hcs : 0 < cs) (hlog : processLog lines = [(100, 199)]) (k : Nat) :
    (∃ r ∈ startThreadsRanges s0 e0 (processLog lines) n,
      ∃ c ∈ prChunks r.1 r.2 cs, c.1 ≤ k ∧ k ≤ c.2)
    ↔ (100 ≤ k ∧ k ≤ 199) := by
  rw [hlog, startThreadsRanges, if_neg (by decide)]
  constructor
  · rintro ⟨r, hr, hc⟩
    rw [List.mem_singleton] at hr
    subst hr
    exact (prChunks_cover 100 199 cs hcs k).1 hc
  · intro hk
    exact ⟨(100, 199), List.mem_singleton.2 rfl, (prChunks_cover 100 199 cs hcs k).2 hk⟩

/-- Witness for C3 on a concrete shutdown log line, at key 150. -/
theorem resume_reprocesses_logged_range_witness :
    (0 : Nat) < 10000
    ∧ processLog ["root - INFO - Thread 5 shutdown at range 100-199"] = [(100, 199)]
    ∧ ((∃ r ∈ startThreadsRanges 0 1000000
          (processLog ["root - INFO - Thread 5 shutdown at range 100-199"]) 200,
        ∃ c ∈ prChunks r.1 r.2 10000, c.1 ≤ 150 ∧ 150 ≤ c.2)
      ↔ (100 ≤ 150 ∧ 150 ≤ 199)) :=
  ⟨by decide, by decide,
    resume_reprocesses_logged_range ["root - INFO - Thread 5 shutdown at range 100-199"]
      0 1000000 10000 200 (by decide) (by decide) 150⟩

/-! Trace analysis: what happens after the cancellation flag is observed, and
after an escaping chunk exception. -/

lemma aftc_cons (ev : Ev) (l : List Ev) :
    afterFirstTrueCheck (ev :: l)
      = if ev = Ev.checkFlag true then some l else afterFirstTrueCheck l := by
  cases ev with
  | checkFlag b => cases b <;> rfl
  | getconn => rfl
  | putconn => rfl
  | execChunk a b => rfl
  | commit a b => rfl
  | rollback a b => rfl
  | printError => rfl
  | logShutdown a b => rfl
  | logError a b => rfl
  | execCreateIndex => rfl
  | execAttachIndex i => rfl
  | commitConn => rfl
  | rollbackConn => rfl

lemma aftc_append_of_no_true (l₁ l₂ : List Ev)
    (h : ∀ ev ∈ l₁, ev ≠ Ev.checkFlag true) :
    afterFirstTrueCheck (l₁ ++ l₂) = afterFirstTrueCheck l₂ := by
  induction l₁ with
  | nil => rfl
  | cons x rest ih =>
    rw [List.cons_append, aftc_cons, if_neg (h x (List.mem_cons_self x rest))]
    exact ih fun ev hev => h ev (List.mem_cons_of_mem x hev)

lemma chunkEvents_no_true_check (fails : Nat → Nat → Bool) (a b : Nat) :
    ∀ ev ∈ chunkEvents fails a b, ev ≠ Ev.checkFlag true := by
  intro ev hev
  unfold chunkEvents at hev
  split at hev <;> simp only [List.mem_cons, List.not_mem_nil, or_false] at hev
  · rcases hev with rfl | rfl | rfl <;> simp
  · rcases hev with rfl | rfl <;> simp

lemma aftc_prLoopAux (flag : Nat → Bool) (fails : Nat → Nat → Bool) (e cs : Nat)
    (l₀ : List Nat) : ∀ (k : Nat) (l : List Ev),
    afterFirstTrueCheck (prLoopAux flag fails e cs l₀ k ++ [Ev.putconn]) = some l →
    ∃ x, l = [Ev.logShutdown x e, Ev.putconn] := by
  induction l₀ with
  | nil =>
    intro k l h
    exact absurd h (by simp [prLoopAux, afterFirstTrueCheck])
  | cons idx rest ih =>
    intro k l h
    by_cases hf : flag k = true
    · simp only [prLoopAux, hf, if_true, List.cons_append, List.singleton_append,
        aftc_cons, if_pos rfl, List.nil_append] at h
      exact ⟨idx, (Option.some.inj h).symm⟩
    · simp only [prLoopAux, hf, if_false, Bool.false_eq_true, List.cons_append] at h
      rw [aftc_cons, if_neg (by simp), List.append_assoc,
        aftc_append_of_no_true _ _ (chunkEvents_no_true_check fails idx _)] at h
      exact ih (k + 1) l h

/-- Claim C4: whenever a worker of `process_range` observes the cancellation
flag (a true check appears in its trace), everything after the observation is
exactly a shutdown log record followed by the connection release: no further
chunk statement is executed, nothing is committed or rolled back after the
observation, and the committed chunks of the whole run are exactly those
committed before the observation. -/
theorem cancellation_stops_and_preserves_commits (flag : Nat → Bool)
    (fails : Nat → Nat → Bool) (s e cs : Nat) (l : List Ev)
    (h : afterFirstTrueCheck (processRange flag fails s e cs) = some l) :
    (∃ x, l = [Ev.logShutdown x e, Ev.putconn])
    ∧ (∀ a b, Ev.execChunk a b ∉ l)
    ∧ (∀ a b, Ev.commit a b ∉ l)
    ∧ (∀ a b, Ev.rollback a b ∉ l)
    ∧ (∀ t1, processRange flag fails s e cs = t1 ++ Ev.checkFlag true :: l →
        commitsOf (processRange flag fails s e cs) = commitsOf t1) := by
  have h' : afterFirstTrueCheck
      (prLoopAux flag fails e cs (pyRange s (e + 1) cs) 0 ++ [Ev.putconn]) = some l := by
    rw [processRange, prLoop, List.cons_append, aftc_cons, if_neg (by simp)] at h
    exact h
  obtain ⟨x, rfl⟩ := aftc_prLoopAux flag fails e cs _ 0 l h'
  refine ⟨⟨x, rfl⟩, ?_, ?_, ?_, ?_⟩
  · intro a b hmem; simp at hmem
  · intro a b hmem; simp at hmem
  · intro a b hmem; simp at hmem
  · intro t1 ht
    rw [ht, commitsOf, List.filterMap_append]
    have h2 : commitsOf (Ev.checkFlag true :: [Ev.logShutdown x e, Ev.putconn]) = [] := rfl
    rw [commitsOf] at h2
    rw [h2, List.append_nil, commitsOf]

/-- Witness for C4: the flag turns true at iteration 1 of the sub-range
`[0, 25000]` with chunk size 10000. -/
theorem cancellation_stops_and_preserves_commits_witness :
    afterFirstTrueCheck (processRange (fun j => decide (1 ≤ j)) (fun _ _ => false) 0 25000 10000)
      = some [Ev.logShutdown 10000 25000, Ev.putconn]
    ∧ ((∃ x, [Ev.logShutdown 10000 25000, Ev.putconn] = [Ev.logShutdown x 25000, Ev.putconn])
    ∧ (∀ a b, Ev.execChunk a b ∉ [Ev.logShutdown 10000 25000, Ev.putconn])
    ∧ (∀ a b, Ev.commit a b ∉ [Ev.logShutdown 10000 25000, Ev.putconn])
    ∧ (∀ a b, Ev.rollback a b ∉ [Ev.logShutdown 10000 25000, Ev.putconn])
    ∧ (∀ t1, processRange (fun j => decide (1 ≤ j)) (fun _ _ => false) 0 25000 10000
          = t1 ++ Ev.checkFlag true :: [Ev.logShutdown 10000 25000, Ev.putconn] →
        commitsOf (processRange (fun j => decide (1 ≤ j)) (fun _ _ => false) 0 25000 10000)
          = commitsOf t1)) :=
  ⟨by decide, cancellation_stops_and_preserves_commits (fun j => decide (1 ≤ j))
    (fun _ _ => false) 0 25000 10000 [Ev.logShutdown 10000 25000, Ev.putconn] (by decide)⟩

/-! Claim C5 (amended).  A statement failure inside the chunk function is
caught there: the transaction rolls back, the error is printed (without the
failing range), and the worker continues with the remaining chunks of its
sub-range.  Only an exception that escapes the chunk function is logged with
`log_error` and aborts the rest of the sub-range; the connection is still
released. -/

lemma prLoopAux_constFalse (fails : Nat → Nat → Bool) (e cs : Nat) (l : List Nat) :
    ∀ k, prLoopAux (fun _ => false) fails e cs l k
      = l.flatMap fun idx =>
          Ev.checkFlag false :: chunkEvents fails idx (min (idx + cs - 1) e) := by
  induction l with
  | nil => intro k; rfl
  | cons idx rest ih =>
    intro k
    simp only [prLoopAux, Bool.false_eq_true, if_false, List.flatMap_cons, ih (k + 1)]
    rfl

lemma prLoop_constFalse (fails : Nat → Nat → Bool) (s e cs : Nat) :
    prLoop (fun _ => false) fails s e cs
      = (prChunks s e cs).flatMap fun c =>
          Ev.checkFlag false :: chunkEvents fails c.1 c.2 := by
  rw [prLoop, prLoopAux_constFalse, prChunks, List.flatMap_map]

lemma afle_cons (ev : Ev) (l : List Ev) :
    afterFirstLogError (ev :: l)
      = if isLogError ev = true then some l else afterFirstLogError l := by
  cases ev with
  | checkFlag b => cases b <;> rfl
  | getconn => rfl
  | putconn => rfl
  | execChunk a b => rfl
  | commit a b => rfl
  | rollback a b => rfl
  | printError => rfl
  | logShutdown a b => rfl
  | logError a b => rfl
  | execCreateIndex => rfl
  | execAttachIndex i => rfl
  | commitConn => rfl
  | rollbackConn => rfl

lemma afle_prLoopXAux (flag : Nat → Bool) (raises : Nat → Nat → Bool) (s0 e cs : Nat)
    (l₀ : List Nat) : ∀ (k : Nat) (l : List Ev),
    afterFirstLogError (prLoopXAux flag raises s0 e cs l₀ k ++ [Ev.putconn]) = some l →
    l = [Ev.putconn] := by
  induction l₀ with
  | nil =>
    intro k l h
    exact absurd h (by simp [prLoopXAux, afterFirstLogError])
  | cons idx rest ih =>
    intro k l h
    by_cases hf : flag k = true
    · simp only [prLoopXAux, hf, if_true, List.cons_append, List.singleton_append] at h
      rw [afle_cons, if_neg (by simp [isLogError])] at h
      rw [afle_cons, if_neg (by simp [isLogError])] at h
      exact absurd h (by simp [afterFirstLogError])
    · by_cases hr : raises idx (min (idx + cs - 1) e) = true
      · simp only [prLoopXAux, hf, if_false, Bool.false_eq_true, hr, if_true,
          List.cons_append, List.singleton_append] at h
        rw [afle_cons, if_neg (by simp [isLogError])] at h
        rw [afle_cons, if_neg (by simp [isLogError])] at h
        rw [afle_cons, if_pos (by simp [isLogError])] at h
        exact (Option.some.inj h).symm
      · simp only [prLoopXAux, hf, hr, if_false, Bool.false_eq_true,
          List.cons_append] at h
        rw [afle_cons, if_neg (by simp [isLogError])] at h
        rw [afle_cons, if_neg (by simp [isLogError])] at h
        rw [afle_cons, if_neg (by simp [isLogError])] at h
        exact ih (k + 1) l h

/-- Claim C5, amended: (i) with the chunk functions of the repository, which
catch their own database errors, a worker visits every chunk of its sub-range
regardless of failures — a failing chunk contributes rollback-and-print events
(no range in the printed message, no `log_error`) and later chunks still
execute; (ii) only when the chunk function propagates its exception does the
worker abort: everything after the `log_error` record is exactly the
connection release. -/
theorem chunk_failure_swallowed_or_aborts :
    (∀ (fails : Nat → Nat → Bool) (s e cs : Nat),
      prLoop (fun _ => false) fails s e cs
        = (prChunks s e cs).flatMap fun c =>
            Ev.checkFlag false :: chunkEvents fails c.1 c.2)
    ∧ (∀ (flag : Nat → Bool) (raises : Nat → Nat → Bool) (s e cs : Nat) (l : List Ev),
      afterFirstLogError (processRangeX flag raises s e cs) = some l →
      l = [Ev.putconn]) := by
  refine ⟨fun fails s e cs => prLoop_constFalse fails s e cs,
    fun flag raises s e cs l h => ?_⟩
  rw [processRangeX, List.cons_append, afle_cons, if_neg (by simp [isLogError])] at h
  exact afle_prLoopXAux flag raises s e cs _ 0 l h

/-- Witness for C5 (amended, part ii) at a concrete raising schedule. -/
theorem chunk_failure_swallowed_or_aborts_witness :
    afterFirstLogError (processRangeX (fun _ => false) (fun a _ => a == 0) 0 5000 10000)
      = some [Ev.putconn]
    ∧ [Ev.putconn] = [Ev.putconn] :=
  ⟨by decide, chunk_failure_swallowed_or_aborts.2 (fun _ => false) (fun a _ => a == 0)
    0 5000 10000 [Ev.putconn] (by decide)⟩

/-! Claim C6.  Shape of the chunked execution over a sub-range. -/

/-- Claim C6: over a sub-range `[s, e]` with `s ≤ e` and chunk size `cs ≥ 1`,
the loop of `process_range` checks the cancellation flag once before each
chunk and issues exactly one statement per chunk; the chunks are
`(s + i*cs, min(s + i*cs + cs - 1, e))` in increasing order, each of exactly
`cs` keys except the last, which is truncated at `e`; together the chunks
cover exactly the keys of `[s, e]`. -/
theorem process_range_chunking (s e cs : Nat) (hse : s ≤ e) (hcs : 0 < cs) :
    prLoop (fun _ => false) (fun _ _ => false) s e cs
      = (prChunks s e cs).flatMap
          (fun c => [Ev.checkFlag false, Ev.execChunk c.1 c.2, Ev.commit c.1 c.2])
    ∧ 0 < (prChunks s e cs).length
    ∧ (∀ i, i < numChunks s e cs → (prChunks s e cs)[i]? =
        some (s + i * cs, min (s + i * cs + cs - 1) e))
    ∧ (∀ (i j : Nat) (ci cj : Nat × Nat), i < j → (prChunks s e cs)[i]? = some ci →
        (prChunks s e cs)[j]? = some cj → ci.1 < cj.1 ∧ ci.2 < cj.1)
    ∧ (∀ (i : Nat) (c : Nat × Nat), i + 1 < numChunks s e cs →
        (prChunks s e cs)[i]? = some c → rlen c = cs)
    ∧ (∀ c : Nat × Nat, (prChunks s e cs).getLast? = some c → c.2 = e)
    ∧ (∀ k, (s ≤ k ∧ k ≤ e) ↔ ∃ c ∈ prChunks s e cs, c.1 ≤ k ∧ k ≤ c.2) := by
  have ht : 0 < e + 1 - s := by omega
  have hnum1 : 1 ≤ numChunks s e cs := one_le_ceil (e + 1 - s) cs ht hcs
  have hnumeq : numChunks s e cs = (e + 1 - s - 1) / cs + 1 :=
    ceil_div_eq (e + 1 - s) cs ht hcs
  have hsome : ∀ {i ci}, (prChunks s e cs)[i]? = some ci →
      i < numChunks s e cs ∧ ci = (s + i * cs, min (s + i * cs + cs - 1) e) := by
    intro i ci hci
    have hilt : i < numChunks s e cs := by
      by_contra hge
      rw [List.getElem?_eq_none (by rw [prChunks_length]; omega)] at hci
      exact Option.noConfusion hci
    rw [prChunks_getElem? s e cs i hilt] at hci
    exact ⟨hilt, (Option.some.inj hci).symm⟩
  refine ⟨?_, ?_, fun i hi => prChunks_getElem? s e cs i hi, ?_, ?_, ?_,
    fun k => (prChunks_cover s e cs hcs k).symm⟩
  · rw [prLoop_constFalse]
    congr 1
  · rw [prChunks_length]; omega
  · intro i j ci cj hij hci hcj
    obtain ⟨hi, rfl⟩ := hsome hci
    obtain ⟨hj, rfl⟩ := hsome hcj
    have hmul : (i + 1) * cs ≤ j * cs := Nat.mul_le_mul_right cs (by omega)
    rw [Nat.succ_mul] at hmul
    have hminle : min (s + i * cs + cs - 1) e ≤ s + i * cs + cs - 1 := Nat.min_le_left _ _
    simp only
    omega
  · intro i c hi hc
    obtain ⟨_, rfl⟩ := hsome hc
    have hile : i + 1 ≤ (e + 1 - s - 1) / cs := by omega
    have hmul : (i + 1) * cs ≤ e + 1 - s - 1 := (Nat.le_div_iff_mul_le hcs).1 hile
    rw [Nat.succ_mul] at hmul
    have hle : s + i * cs + cs - 1 ≤ e := by omega
    rw [rlen, Nat.min_eq_left hle]
    simp only
    omega
  · intro c hc
    rw [List.getLast?_eq_getElem?, prChunks_length,
      prChunks_getElem? s e cs (numChunks s e cs - 1) (by omega)] at hc
    obtain rfl := Option.some.inj hc
    have hmul : e + 1 - s ≤ cs * numChunks s e cs := le_mul_ceil (e + 1 - s) cs hcs
    have hsucc : (numChunks s e cs - 1) * cs + cs = numChunks s e cs * cs := by
      have h1 : (numChunks s e cs - 1 + 1) * cs = (numChunks s e cs - 1) * cs + cs :=
        Nat.succ_mul _ cs
      rw [show numChunks s e cs - 1 + 1 = numChunks s e cs by omega] at h1
      omega
    have hcm : cs * numChunks s e cs = numChunks s e cs * cs := Nat.mul_comm _ _
    have hge : e ≤ s + (numChunks s e cs - 1) * cs + cs - 1 := by omega
    simp only
    rw [Nat.min_eq_right hge]

/-- Witness for C6 on the sub-range `[0, 25000]` with chunk size 10000. -/
theorem process_range_chunking_witness :
    (0 : Nat) ≤ 25000 ∧ (0 : Nat) < 10000 ∧
    (prLoop (fun _ => false) (fun _ _ => false) 0 25000 10000
      = (prChunks 0 25000 10000).flatMap
          (fun c => [Ev.checkFlag false, Ev.execChunk c.1 c.2, Ev.commit c.1 c.2])
    ∧ 0 < (prChunks 0 25000 10000).length
    ∧ (∀ i, i < numChunks 0 25000 10000 → (prChunks 0 25000 10000)[i]? =
        some (0 + i * 10000, min (0 + i * 10000 + 10000 - 1) 25000))
    ∧ (∀ (i j : Nat) (ci cj : Nat × Nat), i < j → (prChunks 0 25000 10000)[i]? = some ci →
        (prChunks 0 25000 10000)[j]? = some cj → ci.1 < cj.1 ∧ ci.2 < cj.1)
    ∧ (∀ (i : Nat) (c : Nat × Nat), i + 1 < numChunks 0 25000 10000 →
        (prChunks 0 25000 10000)[i]? = some c → rlen c = 10000)
    ∧ (∀ c : Nat × Nat, (prChunks 0 25000 10000).getLast? = some c → c.2 = 25000)
    ∧ (∀ k, (0 ≤ k ∧ k ≤ 25000) ↔ ∃ c ∈ prChunks 0 25000 10000, c.1 ≤ k ∧ k ≤ c.2)) :=
  ⟨by decide, by decide, process_range_chunking 0 25000 10000 (by decide) (by decide)⟩

/-! Claim C7.  The trace of a worker cancelled at iteration `m`. -/

lemma prLoopAux_shift (flag : Nat → Bool) (fails : Nat → Nat → Bool) (e cs : Nat)
    (l : List Nat) : ∀ k, prLoopAux flag fails e cs l (k + 1)
      = prLoopAux (fun j => flag (j + 1)) fails e cs l k := by
  induction l with
  | nil => intro k; rfl
  | cons idx rest ih =>
    intro k
    simp only [prLoopAux]
    rw [ih (k + 1)]

lemma flagAt_shift (m : Nat) : (fun j => flagAt (m + 1) (j + 1)) = flagAt m := by
  funext j
  simp [flagAt, Nat.add_le_add_iff_right]

lemma commitsOf_cons_getconn (t : List Ev) :
    commitsOf (Ev.getconn :: t) = commitsOf t := rfl

lemma commitsOf_append (a b : List Ev) :
    commitsOf (a ++ b) = commitsOf a ++ commitsOf b :=
  List.filterMap_append a b _

lemma commitsOf_triples (l : List (Nat × Nat)) :
    commitsOf (l.flatMap fun c =>
      [Ev.checkFlag false, Ev.execChunk c.1 c.2, Ev.commit c.1 c.2]) = l := by
  induction l with
  | nil => rfl
  | cons c rest ih =>
    rw [List.flatMap_cons, commitsOf_append, ih]
    rfl

lemma commitsOf_shutdown_tail (x e' : Nat) :
    commitsOf [Ev.checkFlag true, Ev.logShutdown x e', Ev.putconn] = [] := rfl

/-- Trace of the loop when the flag turns true exactly at iteration `m`
(with `m` chunks still inside the sub-range): the first `m` chunks are
executed and committed, then the observation, the shutdown log naming the
boundary `s + m*cs` with the sub-range end, and nothing else. -/
lemma prLoop_cancel_at (s e cs m : Nat) (hcs : 0 < cs) (hm : s + m * cs ≤ e) :
    prLoop (flagAt m) (fun _ _ => false) s e cs
      = ((List.range m).map fun i => (s + i * cs, s + (i + 1) * cs - 1)).flatMap
          (fun c => [Ev.checkFlag false, Ev.execChunk c.1 c.2, Ev.commit c.1 c.2])
        ++ [Ev.checkFlag true, Ev.logShutdown (s + m * cs) e] := by
  induction m generalizing s with
  | zero =>
    rw [prLoop, pyRange_cons s (e + 1) cs (by omega) hcs]
    simp only [prLoopAux]
    rw [if_pos (show flagAt 0 0 = true by decide)]
    simp
  | succ m ih =>
    have hsm : (m + 1) * cs = m * cs + cs := Nat.succ_mul m cs
    have hse : s < e + 1 := by omega
    rw [prLoop, pyRange_cons s (e + 1) cs hse hcs]
    simp only [prLoopAux]
    rw [if_neg (by simp [flagAt])]
    rw [Nat.min_eq_left (by omega)]
    rw [show (0 : Nat) + 1 = 0 + 1 from rfl, prLoopAux_shift, flagAt_shift]
    have hrec : prLoopAux (flagAt m) (fun _ _ => false) e cs
        (pyRange (s + cs) (e + 1) cs) 0
          = prLoop (flagAt m) (fun _ _ => false) (s + cs) e cs := rfl
    rw [hrec, ih (s + cs) (by omega)]
    rw [List.range_succ_eq_map, List.map_cons, List.map_map, List.flatMap_cons]
    have htail : (List.range m).map ((fun i => (s + i * cs, s + (i + 1) * cs - 1)) ∘ Nat.succ)
        = (List.range m).map (fun i => (s + cs + i * cs, s + cs + (i + 1) * cs - 1)) := by
      refine List.map_congr_left fun i _ => ?_
      have h1 : (i + 1) * cs = i * cs + cs := Nat.succ_mul i cs
      have h2 : (i + 1 + 1) * cs = (i + 1) * cs + cs := Nat.succ_mul (i + 1) cs
      simp only [Function.comp_apply, Nat.succ_eq_add_one, Prod.mk.injEq]
      constructor <;> omega
    rw [htail]
    have hlog : s + cs + m * cs = s + (m + 1) * cs := by omega
    rw [hlog]
    simp [chunkEvents, List.append_assoc]

/-- Claim C7: a worker whose cancellation flag turns true at iteration `m`
(still inside its sub-range) commits exactly the first `m` chunks, then logs
`log_shutdown` with the boundary `s + m*cs` — the first key not yet processed,
i.e. the bound up to which its chunks have committed — together with its
sub-range end `e`, releases the connection and processes no further chunk; the
committed chunks cover exactly `[s, s + m*cs - 1]`. -/
theorem shutdown_logs_boundary (s e cs m : Nat) (hcs : 0 < cs) (hm : s + m * cs ≤ e) :
    processRange (flagAt m) (fun _ _ => false) s e cs
      = Ev.getconn :: (((List.range m).map fun i => (s + i * cs, s + (i + 1) * cs - 1)).flatMap
          (fun c => [Ev.checkFlag false, Ev.execChunk c.1 c.2, Ev.commit c.1 c.2])
        ++ [Ev.checkFlag true, Ev.logShutdown (s + m * cs) e, Ev.putconn])
    ∧ commitsOf (processRange (flagAt m) (fun _ _ => false) s e cs)
        = ((List.range m).map fun i => (s + i * cs, s + (i + 1) * cs - 1))
    ∧ (∀ k, (∃ c ∈ commitsOf (processRange (flagAt m) (fun _ _ => false) s e cs),
          c.1 ≤ k ∧ k ≤ c.2) ↔ (s ≤ k ∧ k < s + m * cs)) := by
  have htrace : processRange (flagAt m) (fun _ _ => false) s e cs
      = Ev.getconn :: (((List.range m).map fun i => (s + i * cs, s + (i + 1) * cs - 1)).flatMap
          (fun c => [Ev.checkFlag false, Ev.execChunk c.1 c.2, Ev.commit c.1 c.2])
        ++ [Ev.checkFlag true, Ev.logShutdown (s + m * cs) e, Ev.putconn]) := by
    rw [processRange, prLoop_cancel_at s e cs m hcs hm]
    simp
  have hcommits : commitsOf (processRange (flagAt m) (fun _ _ => false) s e cs)
      = ((List.range m).map fun i => (s + i * cs, s + (i + 1) * cs - 1)) := by
    rw [htrace, commitsOf_cons_getconn, commitsOf_append, commitsOf_triples,
      commitsOf_shutdown_tail, List.append_nil]
  refine ⟨htrace, hcommits, ?_⟩
  intro k
  rw [hcommits]
  constructor
  · rintro ⟨c, hc, h1, h2⟩
    simp only [List.mem_map, List.mem_range] at hc
    obtain ⟨i, hi, rfl⟩ := hc
    have hmul : (i + 1) * cs ≤ m * cs := Nat.mul_le_mul_right cs (by omega)
    have h3 : (i + 1) * cs = i * cs + cs := Nat.succ_mul i cs
    simp only at h1 h2
    omega
  · rintro ⟨h1, h2⟩
    have hidx : (k - s) / cs < m := by
      rw [Nat.div_lt_iff_lt_mul hcs]
      have : m * cs = cs * m := Nat.mul_comm _ _
      omega
    refine ⟨(s + ((k - s) / cs) * cs, s + ((k - s) / cs + 1) * cs - 1),
      List.mem_map.2 ⟨(k - s) / cs, List.mem_range.2 hidx, rfl⟩, ?_, ?_⟩
    · have := Nat.div_mul_le_self (k - s) cs
      omega
    · have hdm := Nat.div_add_mod (k - s) cs
      have hmod : (k - s) % cs < cs := Nat.mod_lt _ hcs
      have h3 : ((k - s) / cs + 1) * cs = (k - s) / cs * cs + cs := Nat.succ_mul _ cs
      generalize hv : (k - s) / cs = v at hdm h3 ⊢
      have : cs * v = v * cs := Nat.mul_comm _ _
      omega

/-- Witness for C7: cancellation at iteration 1 on the sub-range `[0, 25000]`
with chunk size 10000. -/
theorem shutdown_logs_boundary_witness :
    (0 : Nat) < 10000 ∧ (0 : Nat) + 1 * 10000 ≤ 25000 ∧
    (processRange (flagAt 1) (fun _ _ => false) 0 25000 10000
      = Ev.getconn :: (((List.range 1).map fun i => (0 + i * 10000, 0 + (i + 1) * 10000 - 1)).flatMap
          (fun c => [Ev.checkFlag false, Ev.execChunk c.1 c.2, Ev.commit c.1 c.2])
        ++ [Ev.checkFlag true, Ev.logShutdown (0 + 1 * 10000) 25000, Ev.putconn])
    ∧ commitsOf (processRange (flagAt 1) (fun _ _ => false) 0 25000 10000)
        = ((List.range 1).map fun i => (0 + i * 10000, 0 + (i + 1) * 10000 - 1))
    ∧ (∀ k, (∃ c ∈ commitsOf (processRange (flagAt 1) (fun _ _ => false) 0 25000 10000),
          c.1 ≤ k ∧ k ≤ c.2) ↔ (0 ≤ k ∧ k < 0 + 1 * 10000))) :=
  ⟨by decide, by decide, shutdown_logs_boundary 0 25000 10000 1 (by decide) (by decide)⟩

/-! Claim C9.  Alignment of the sub-ranges of transactions_v2.start_threads
with `calculate_partition` and with the declared partition bounds. -/

lemma tvThreadRanges_getElem? (s e p : Nat) (hp : p < 131) :
    (tvThreadRanges s e)[p]? =
      some (s + p * 10000000, min (s + p * 10000000 + 10000000 - 1) e) := by
  simp [tvThreadRanges, List.getElem?_map, List.getElem?_range hp]

lemma tvThreadRanges_length (s e : Nat) : (tvThreadRanges s e).length = 131 := by
  simp [tvThreadRanges]

/-- Claim C9: with `start = 0` and no supplied thread_ranges, every key of the
`p`-th sub-range of transactions_v2's `start_threads` maps to partition `p`
under `calculate_partition`; `process_range` computes its destination
partition from the sub-range start, which also yields `p`; and every key of
every chunk of that sub-range lies within the declared bounds
`[p*10000000, (p+1)*10000000)` of the partition table the rows are written
to. -/
theorem tv2_ranges_align_with_partitions (e p k cs : Nat) (r : Nat × Nat) (hcs : 0 < cs)
    (hr : (tvThreadRanges 0 e)[p]? = some r) (hk : r.1 ≤ k ∧ k ≤ r.2) :
    calculatePartition k = p
    ∧ calculatePartition r.1 = p
    ∧ attachLowerBound p ≤ k ∧ k < attachUpperBound p
    ∧ (∀ c ∈ prChunks r.1 r.2 cs, ∀ tx, c.1 ≤ tx → tx ≤ c.2 →
        attachLowerBound p ≤ tx ∧ tx < attachUpperBound p) := by
  have hp : p < 131 := by
    by_contra hge
    rw [List.getElem?_eq_none (by rw [tvThreadRanges_length]; omega)] at hr
    exact Option.noConfusion hr
  rw [tvThreadRanges_getElem? 0 e p hp] at hr
  obtain rfl := Option.some.inj hr
  obtain ⟨hk1, hk2⟩ := hk
  simp only at hk1 hk2
  have hsucc : (p + 1) * 10000000 = p * 10000000 + 10000000 := Nat.succ_mul p 10000000
  have hk2' : k ≤ p * 10000000 + 10000000 - 1 := by
    have := Nat.min_le_left (0 + p * 10000000 + 10000000 - 1) e
    omega
  have hbound : ∀ tx, p * 10000000 ≤ tx → tx ≤ p * 10000000 + 10000000 - 1 →
      calculatePartition tx = p
      ∧ attachLowerBound p ≤ tx ∧ tx < attachUpperBound p := by
    intro tx h1 h2
    refine ⟨Nat.div_eq_of_lt_le (by omega) (by omega), ?_, ?_⟩
    · rw [attachLowerBound]; omega
    · rw [attachUpperBound]; omega
  obtain ⟨hd, hl, hu⟩ := hbound k (by omega) hk2'
  refine ⟨hd, ?_, hl, hu, ?_⟩
  · show (0 + p * 10000000) / 10000000 = p
    rw [Nat.zero_add]
    exact Nat.mul_div_cancel p (by omega)
  · intro c hc tx h1 h2
    obtain ⟨i, hi, rfl⟩ := (mem_prChunks _ _ cs c).1 hc
    simp only at h1 h2
    have hcle : min ((0 + p * 10000000) + i * cs + cs - 1)
        (min (0 + p * 10000000 + 10000000 - 1) e)
          ≤ min (0 + p * 10000000 + 10000000 - 1) e := Nat.min_le_right _ _
    have htx1 : p * 10000000 ≤ tx := by omega
    have htx2 : tx ≤ p * 10000000 + 10000000 - 1 := by
      have := Nat.min_le_left (0 + p * 10000000 + 10000000 - 1) e
      omega
    exact (hbound tx htx1 htx2).2

set_option maxRecDepth 8192 in
/-- Witness for C9: partition 1 of the bulk-load range `[0, 1300225137]`, at
key 15000000 with chunk size 10000. -/
theorem tv2_ranges_align_with_partitions_witness :
    (0 : Nat) < 10000
    ∧ (tvThreadRanges 0 1300225137)[1]? = some (10000000, 19999999)
    ∧ ((10000000, 19999999) : Nat × Nat).1 ≤ 15000000
    ∧ (15000000 : Nat) ≤ ((10000000, 19999999) : Nat × Nat).2
    ∧ (calculatePartition 15000000 = 1
      ∧ calculatePartition ((10000000, 19999999) : Nat × Nat).1 = 1
      ∧ attachLowerBound 1 ≤ 15000000 ∧ 15000000 < attachUpperBound 1
      ∧ (∀ c ∈ prChunks ((10000000, 19999999) : Nat × Nat).1
            ((10000000, 19999999) : Nat × Nat).2 10000,
          ∀ tx, c.1 ≤ tx → tx ≤ c.2 →
            attachLowerBound 1 ≤ tx ∧ tx < attachUpperBound 1)) :=
  ⟨by decide, by decide, by decide, by decide,
    tv2_ranges_align_with_partitions 1300225137 1 15000000 10000 (10000000, 19999999)
      (by decide) (by decide) ⟨by decide, by decide⟩⟩

end GraphqlBenchmark
